import Mathlib

/-! ARVectorFields: the native greeting bridge.

A shallow embedding of `app/src/main/cpp/native_lib.cpp`, whose single function
`Java_com_tbse_arvectorfields_GoogleSignInActivity_stringMethod` borrows the characters of a
Java string, appends them to a 60-byte stack buffer holding "Hello ", releases the characters,
prints the buffer with `puts` and returns a new Java string built from the buffer.

The C library and JNI routines the function calls (`strcat`, `puts`, `GetStringUTFChars`,
`ReleaseStringUTFChars`, `NewStringUTF`) are embedded with their documented behaviour over an
explicit world: the character array lent by the JVM, the stack buffer `msg`, the bytes written
to standard output and the sequence of calls made so far. A memory access the C language leaves
undefined (a load through a null pointer, a store outside the array) ends the run with
`Outcome.undefined`.
-/

namespace ARVectorFields

/-- One C `char`. -/
abbrev Byte := Fin 256

/-- A `jstring`: the null reference, or a Java string given by the bytes of its modified UTF-8
form (which holds no NUL byte). -/
abbrev jstring := Option (List Byte)

/-- The values a `char *` takes in `stringMethod`: `NULL`, the start of the character array lent
by the JVM, or the start of the local array `msg`. -/
inductive CharPtr where
  | null
  | chars
  | msg
  deriving DecidableEq

/-- The memory errors of the C abstract machine that the embedding detects. -/
inductive Fault where
  | nullPointer
  | outOfBounds (index : Nat)
  | unterminated
  | released
  deriving DecidableEq

/-- One library call, with its pointer arguments (for `GetStringUTFChars`, the pointer it gave
back). -/
inductive Event where
  | GetStringUTFChars (string : jstring) (ret : CharPtr)
  | strcat (dest src : CharPtr)
  | ReleaseStringUTFChars (string : jstring) (utf : CharPtr)
  | puts (s : CharPtr)
  | NewStringUTF (s : CharPtr)
  deriving DecidableEq

/-- Everything a call of `stringMethod` can read or change. -/
structure World where
  /-- The character array handed out by `GetStringUTFChars`. -/
  chars : List Byte
  /-- Whether that array is lent at the moment (obtained and not yet released). -/
  lent : Bool
  /-- The stack array `char msg[60]`; before the declaration runs it holds stale bytes. -/
  msg : List Byte
  /-- The bytes written to standard output so far. -/
  stdout : List Byte
  /-- The library calls made so far, oldest first. -/
  trace : List Event
  deriving DecidableEq

/-- How a call of `stringMethod` ends: it returns a `jstring`, or its behaviour is undefined
from the call that was entered in world `w` on. -/
inductive Outcome where
  | returned (result : jstring) (w : World)
  | undefined (f : Fault) (w : World)
  deriving DecidableEq

/-- The bytes of the literal "Hello ". -/
def hello : List Byte := [72, 101, 108, 108, 111, 32]

/-- The declaration `char msg[60] = "Hello "`: the literal, then zeros up to 60 bytes. -/
def msgInit : List Byte := hello ++ List.replicate 54 0

/-- Record a library call. -/
def World.log (w : World) (e : Event) : World :=
  { w with trace := w.trace ++ [e] }

/-- The array a pointer designates. -/
def load (w : World) : CharPtr → Except Fault (List Byte)
  | .null => .error .nullPointer
  | .chars => if w.lent then .ok w.chars else .error .released
  | .msg => .ok w.msg

/-- Put back the array a pointer designates. -/
def store (w : World) : CharPtr → List Byte → World
  | .null, _ => w
  | .chars, a => { w with chars := a }
  | .msg, a => { w with msg := a }

/-- The C string that starts an array: the bytes before its first NUL (`none` when the array
holds no NUL, so that reading it runs off the end). -/
def cstring : List Byte → Option (List Byte)
  | [] => none
  | c :: cs => if c = 0 then some [] else (cstring cs).map (c :: ·)

/-- The C `strlen`: the index of the first NUL of an array. -/
def strlen (a : List Byte) : Option Nat :=
  (cstring a).map List.length

/-- The stores `*d++ = *s++` of the copy loop of `strcat`, as pairs of an index into the
destination array and the byte stored there: one per source byte, up to and including the
first NUL. -/
def copyStores : List Byte → Nat → List (Nat × Byte)
  | [], _ => []
  | c :: cs, i => (i, c) :: (if c = 0 then [] else copyStores cs (i + 1))

/-- Perform stores in order on an array; a store outside the array is undefined. -/
def storeAll : List (Nat × Byte) → List Byte → Except Fault (List Byte)
  | [], a => .ok a
  | (i, c) :: rest, a =>
    if i < a.length then storeAll rest (a.set i c) else .error (.outOfBounds i)

/-- The stores `strcat(dest, src)` performs, for the arrays its arguments designate. The routine
checks nothing: the list does not depend on the capacity of the destination. -/
def strcatStores (d s : List Byte) : Option (List (Nat × Byte)) :=
  (strlen d).map (copyStores s)

/-- `GetStringUTFChars(string, NULL)`: for the null reference the Android runtime gives back
`NULL`; otherwise the JVM lends an array holding the bytes of the string and a terminating
NUL. -/
def GetStringUTFChars (string : jstring) (w : World) : CharPtr × World :=
  match string with
  | none => (.null, w.log (.GetStringUTFChars string .null))
  | some s =>
    (.chars, { w with chars := s ++ [0], lent := true,
                      trace := w.trace ++ [.GetStringUTFChars string .chars] })

/-- The C `strcat(dest, src)`: find the NUL that ends `dest`, then copy the bytes of `src`
there, its NUL included. No capacity is passed and none is checked. -/
def strcat (dest src : CharPtr) (w : World) : Except (Fault × World) World :=
  let w1 := w.log (.strcat dest src)
  match load w1 dest, load w1 src with
  | .error f, _ => .error (f, w1)
  | .ok _, .error f => .error (f, w1)
  | .ok d, .ok s =>
    match strcatStores d s with
    | none => .error (.unterminated, w1)
    | some stores =>
      match storeAll stores d with
      | .error f => .error (f, w1)
      -- a source array without a NUL is read past its end
      | .ok d2 => if 0 ∈ s then .ok (store w1 dest d2) else .error (.unterminated, w1)

/-- `ReleaseStringUTFChars(string, utf)`: the lent array goes back to the JVM. -/
def ReleaseStringUTFChars (string : jstring) (utf : CharPtr) (w : World) : World :=
  { w with lent := false, trace := w.trace ++ [.ReleaseStringUTFChars string utf] }

/-- The C `puts(s)`: write the C string at `s` and a newline to standard output. -/
def puts (s : CharPtr) (w : World) : Except (Fault × World) World :=
  let w1 := w.log (.puts s)
  match load w1 s with
  | .error f => .error (f, w1)
  | .ok a =>
    match cstring a with
    | none => .error (.unterminated, w1)
    | some text => .ok { w1 with stdout := w1.stdout ++ text ++ [10] }

/-- `NewStringUTF(s)`: a new Java string made from the C string at `s`. -/
def NewStringUTF (s : CharPtr) (w : World) : Except (Fault × World) (jstring × World) :=
  let w1 := w.log (.NewStringUTF s)
  match load w1 s with
  | .error f => .error (f, w1)
  | .ok a =>
    match cstring a with
    | none => .error (.unterminated, w1)
    | some text => .ok (some text, w1)

/-- The body of `stringMethod` after line 13, for a given value of `name`. -/
def stringMethodBody (string : jstring) (name : CharPtr) (w : World) : Outcome :=
  -- char msg[60] = "Hello ";
  let w1 := { w with msg := msgInit }
  -- strcat(msg, name);
  match strcat .msg name w1 with
  | .error (f, wf) => .undefined f wf
  | .ok w2 =>
    -- (*env).ReleaseStringUTFChars(string, name);
    let w3 := ReleaseStringUTFChars string name w2
    -- puts(msg);
    match puts .msg w3 with
    | .error (f, wf) => .undefined f wf
    | .ok w4 =>
      -- result = (*env).NewStringUTF(msg); return result;
      match NewStringUTF .msg w4 with
      | .error (f, wf) => .undefined f wf
      | .ok (result, w5) => .returned result w5

/-- The native method
`Java_com_tbse_arvectorfields_GoogleSignInActivity_stringMethod(env, thiz, string)`. -/
def stringMethod (string : jstring) (w : World) : Outcome :=
  -- const char *name = (*env).GetStringUTFChars(string, NULL);
  let (name, w1) := GetStringUTFChars string w
  stringMethodBody string name w1

/-- A world in which nothing has happened yet. -/
def World.start : World :=
  { chars := [], lent := false, msg := [], stdout := [], trace := [] }

/-- The value a call hands back to its caller, when it returns. -/
def Outcome.result : Outcome → Option jstring
  | .returned r _ => some r
  | .undefined _ _ => none

/-- The arrays a library call reads. -/
def Event.reads : Event → List CharPtr
  | .GetStringUTFChars _ _ => []
  | .strcat dest src => [dest, src]
  | .ReleaseStringUTFChars _ _ => []
  | .puts s => [s]
  | .NewStringUTF s => [s]

/-- The arrays a library call writes. -/
def Event.writes : Event → List CharPtr
  | .strcat dest _ => [dest]
  | _ => []

/-- Whether a call is a `ReleaseStringUTFChars`. -/
def Event.isRelease : Event → Bool
  | .ReleaseStringUTFChars _ _ => true
  | _ => false

/-- Whether a call writes to standard output. -/
def Event.isOutput : Event → Bool
  | .puts _ => true
  | _ => false

/-- The five library calls of one run of `stringMethod` on a non-null string, in order. -/
def callsOf (string : jstring) : List Event :=
  [.GetStringUTFChars string .chars, .strcat .msg .chars,
   .ReleaseStringUTFChars string .chars, .puts .msg, .NewStringUTF .msg]

/-! ## Lemmas on the C string routines -/

theorem cstring_append_nul (p t : List Byte) (h : ∀ b ∈ p, b ≠ 0) :
    cstring (p ++ 0 :: t) = some p := by
  induction p with
  | nil => simp [cstring]
  | cons c cs ih =>
    have hc : c ≠ 0 := h c (by simp)
    have hcs : ∀ b ∈ cs, b ≠ 0 := fun b hb => h b (by simp [hb])
    simp [cstring, hc, ih hcs]

theorem set_at_length (pre : List Byte) (c r : Byte) (rest : List Byte) :
    (pre ++ r :: rest).set pre.length c = pre ++ c :: rest := by
  induction pre with
  | nil => simp
  | cons x xs ih => simp [ih]

theorem storeAll_copy_fits (S : List Byte) :
    ∀ pre rest : List Byte, (∀ b ∈ S, b ≠ 0) → S.length < rest.length →
      storeAll (copyStores (S ++ [0]) pre.length) (pre ++ rest)
        = .ok (pre ++ S ++ 0 :: rest.drop (S.length + 1)) := by
  induction S with
  | nil =>
    intro pre rest _ hlen
    cases rest with
    | nil => simp at hlen
    | cons r rest => simp [copyStores, storeAll, set_at_length]
  | cons c cs ih =>
    intro pre rest h hlen
    have hc : c ≠ 0 := h c (by simp)
    have hcs : ∀ b ∈ cs, b ≠ 0 := fun b hb => h b (by simp [hb])
    cases rest with
    | nil => simp at hlen
    | cons r rest =>
      have hlen2 : cs.length < rest.length := by simpa using hlen
      have step := ih (pre ++ [c]) rest hcs hlen2
      simp only [List.length_append, List.length_singleton, List.append_assoc,
        List.singleton_append] at step
      simp [copyStores, storeAll, hc, set_at_length, step]

theorem storeAll_copy_overflow (S : List Byte) :
    ∀ pre rest : List Byte, (∀ b ∈ S, b ≠ 0) → rest.length ≤ S.length →
      storeAll (copyStores (S ++ [0]) pre.length) (pre ++ rest)
        = .error (.outOfBounds (pre.length + rest.length)) := by
  induction S with
  | nil =>
    intro pre rest _ hlen
    have hr : rest = [] := by simpa using hlen
    subst hr
    simp [copyStores, storeAll]
  | cons c cs ih =>
    intro pre rest h hlen
    have hc : c ≠ 0 := h c (by simp)
    have hcs : ∀ b ∈ cs, b ≠ 0 := fun b hb => h b (by simp [hb])
    cases rest with
    | nil => simp [copyStores, storeAll]
    | cons r rest =>
      have hlen2 : rest.length ≤ cs.length := by simpa using hlen
      have step := ih (pre ++ [c]) rest hcs hlen2
      simp only [List.length_append, List.length_singleton, List.append_assoc,
        List.singleton_append] at step
      simp [copyStores, storeAll, hc, set_at_length, step]
      omega

theorem copyStores_indices (S : List Byte) :
    ∀ i : Nat, (∀ b ∈ S, b ≠ 0) →
      (copyStores (S ++ [0]) i).map Prod.fst = List.range' i (S.length + 1) := by
  induction S with
  | nil => intro i _; simp [copyStores]
  | cons c cs ih =>
    intro i h
    have hc : c ≠ 0 := h c (by simp)
    have hcs : ∀ b ∈ cs, b ≠ 0 := fun b hb => h b (by simp [hb])
    simp [copyStores, hc, ih (i + 1) hcs, List.range'_succ]

theorem copyStores_last (S : List Byte) :
    ∀ i : Nat, (∀ b ∈ S, b ≠ 0) →
      (copyStores (S ++ [0]) i).getLast? = some (i + S.length, 0) := by
  induction S with
  | nil => intro i _; simp [copyStores]
  | cons c cs ih =>
    intro i h
    have hc : c ≠ 0 := h c (by simp)
    have hcs : ∀ b ∈ cs, b ≠ 0 := fun b hb => h b (by simp [hb])
    have step := ih (i + 1) hcs
    cases hk : copyStores (cs ++ [0]) (i + 1) with
    | nil => simp [hk] at step
    | cons x xs =>
      rw [hk] at step
      simp [copyStores, hc, hk, List.getLast?_cons_cons, step]
      omega

/-! ## The run of `stringMethod` -/

theorem strlen_msgInit : strlen msgInit = some 6 := by decide

theorem storeAll_msgInit_fits (S : List Byte) (h : ∀ b ∈ S, b ≠ 0) (hlen : S.length ≤ 53) :
    storeAll (copyStores (S ++ [0]) 6) msgInit
      = .ok (hello ++ S ++ 0 :: List.replicate (53 - S.length) 0) := by
  have key := storeAll_copy_fits S hello (List.replicate 54 0) h
    (by rw [List.length_replicate]; omega)
  rw [List.drop_replicate, show 54 - (S.length + 1) = 53 - S.length by omega] at key
  exact key

theorem storeAll_msgInit_overflow (S : List Byte) (h : ∀ b ∈ S, b ≠ 0) (hlen : 54 ≤ S.length) :
    storeAll (copyStores (S ++ [0]) 6) msgInit = .error (.outOfBounds 60) := by
  have key := storeAll_copy_overflow S hello (List.replicate 54 0) h
    (by rw [List.length_replicate]; exact hlen)
  rw [List.length_replicate] at key
  exact key

theorem hello_append_ne_nul (S : List Byte) (h : ∀ b ∈ S, b ≠ 0) :
    ∀ b ∈ hello ++ S, b ≠ 0 := by
  intro b hb
  rcases List.mem_append.mp hb with hb | hb
  · simp only [hello, List.mem_cons, List.mem_singleton, List.not_mem_nil, or_false] at hb
    rcases hb with rfl | rfl | rfl | rfl | rfl | rfl <;> decide
  · exact h b hb

theorem cstring_msg_after (S : List Byte) (h : ∀ b ∈ S, b ≠ 0) (n : Nat) :
    cstring (hello ++ (S ++ 0 :: List.replicate n 0)) = some (hello ++ S) := by
  have key := cstring_append_nul (hello ++ S) (List.replicate n 0) (hello_append_ne_nul S h)
  rwa [List.append_assoc] at key

/-- The complete outcome of a run on a string of at most 53 non-NUL bytes. -/
theorem stringMethod_inbound (S : List Byte) (w : World) (h : ∀ b ∈ S, b ≠ 0)
    (hlen : S.length ≤ 53) :
    stringMethod (some S) w = .returned (some (hello ++ S))
      { chars := S ++ [0], lent := false,
        msg := hello ++ S ++ 0 :: List.replicate (53 - S.length) 0,
        stdout := w.stdout ++ (hello ++ S) ++ [10],
        trace := w.trace ++ callsOf (some S) } := by
  simp [stringMethod, stringMethodBody, GetStringUTFChars, strcat, load, store, World.log,
    strcatStores, strlen_msgInit, storeAll_msgInit_fits S h hlen, ReleaseStringUTFChars, puts,
    NewStringUTF, cstring_msg_after S h, callsOf]

/-- The complete outcome of a run on a string of 54 or more non-NUL bytes. -/
theorem stringMethod_overflow (S : List Byte) (w : World) (h : ∀ b ∈ S, b ≠ 0)
    (hlen : 54 ≤ S.length) :
    stringMethod (some S) w = .undefined (.outOfBounds 60)
      { chars := S ++ [0], lent := true, msg := msgInit, stdout := w.stdout,
        trace := w.trace ++ [.GetStringUTFChars (some S) .chars, .strcat .msg .chars] } := by
  simp [stringMethod, stringMethodBody, GetStringUTFChars, strcat, load, World.log,
    strcatStores, strlen_msgInit, storeAll_msgInit_overflow S h hlen]

/-! ## What each library call leaves alone -/

theorem strcat_ok_frame (dest src : CharPtr) (w w2 : World) (hrun : strcat dest src w = .ok w2) :
    w2.trace = w.trace ++ [.strcat dest src] ∧ w2.lent = w.lent ∧ w2.stdout = w.stdout ∧
      (dest = .msg → w2.chars = w.chars) ∧ src ≠ .null := by
  unfold strcat at hrun
  simp only at hrun
  split at hrun
  · cases hrun
  · cases hrun
  · rename_i d s hd hs
    have hsrc : src ≠ .null := by
      intro hn
      subst hn
      simp [load] at hs
    split at hrun
    · cases hrun
    · split at hrun
      · cases hrun
      · split at hrun
        · cases hrun
          refine ⟨?_, ?_, ?_, ?_, hsrc⟩
          · cases dest <;> simp [store, World.log]
          · cases dest <;> simp [store, World.log]
          · cases dest <;> simp [store, World.log]
          · intro hd2
            subst hd2
            simp [store, World.log]
        · cases hrun

theorem puts_ok_frame (s : CharPtr) (w w2 : World) (hrun : puts s w = .ok w2) :
    w2.trace = w.trace ++ [.puts s] ∧ w2.lent = w.lent ∧ w2.chars = w.chars ∧
      w2.msg = w.msg := by
  unfold puts at hrun
  simp only at hrun
  split at hrun
  · cases hrun
  · split at hrun
    · cases hrun
    · cases hrun
      simp [World.log]

theorem NewStringUTF_ok_frame (s : CharPtr) (w w2 : World) (r : jstring)
    (hrun : NewStringUTF s w = .ok (r, w2)) :
    w2.trace = w.trace ++ [.NewStringUTF s] ∧ w2.lent = w.lent ∧ w2.chars = w.chars ∧
      w2.msg = w.msg ∧ w2.stdout = w.stdout := by
  unfold NewStringUTF at hrun
  simp only at hrun
  split at hrun
  · cases hrun
  · split at hrun
    · cases hrun
    · cases hrun
      simp [World.log]

theorem strcat_error_frame (dest src : CharPtr) (w wf : World) (f : Fault)
    (hrun : strcat dest src w = .error (f, wf)) : wf = w.log (.strcat dest src) := by
  unfold strcat at hrun
  simp only at hrun
  split at hrun
  · cases hrun; rfl
  · cases hrun; rfl
  · split at hrun
    · cases hrun; rfl
    · split at hrun
      · cases hrun; rfl
      · split at hrun
        · cases hrun
        · cases hrun; rfl

theorem cstring_of_nul_mem (a : List Byte) (h : (0 : Byte) ∈ a) : ∃ t, cstring a = some t := by
  induction a with
  | nil => simp at h
  | cons c cs ih =>
    by_cases hc : c = 0
    · exact ⟨[], by simp [cstring, hc]⟩
    · have hcs : (0 : Byte) ∈ cs := by
        rcases List.mem_cons.mp h with h0 | h0
        · exact absurd h0.symm hc
        · exact h0
      obtain ⟨t, ht⟩ := ih hcs
      exact ⟨c :: t, by simp [cstring, hc, ht]⟩

theorem storeAll_copy_nul_mem (s : List Byte) :
    ∀ (n : Nat) (d d2 : List Byte), (0 : Byte) ∈ s → storeAll (copyStores s n) d = .ok d2 →
      (0 : Byte) ∈ d2 := by
  induction s with
  | nil => intro n d d2 h; simp at h
  | cons c cs ih =>
    intro n d d2 h hrun
    by_cases hn : n < d.length
    · by_cases hc : c = 0
      · subst hc
        simp only [copyStores, storeAll, hn, if_true] at hrun
        cases hrun
        exact List.mem_iff_getElem.mpr ⟨n, by simpa using hn, by simp⟩
      · have hcs : (0 : Byte) ∈ cs := by
          rcases List.mem_cons.mp h with h0 | h0
          · exact absurd h0.symm hc
          · exact h0
        simp only [copyStores, storeAll, hn, hc, if_true, if_false] at hrun
        exact ih (n + 1) (d.set n c) d2 hcs hrun
    · simp [copyStores, storeAll, hn] at hrun

theorem strcat_msg_ok_nul (src : CharPtr) (w w2 : World) (hrun : strcat .msg src w = .ok w2) :
    (0 : Byte) ∈ w2.msg := by
  unfold strcat at hrun
  simp only at hrun
  split at hrun
  · cases hrun
  · cases hrun
  · split at hrun
    · cases hrun
    · rename_i stores hst
      split at hrun
      · cases hrun
      · rename_i d2 hstore
        split at hrun
        · rename_i hmem
          cases hrun
          simp only [strcatStores, Option.map_eq_some'] at hst
          obtain ⟨n, _, hn⟩ := hst
          subst hn
          exact storeAll_copy_nul_mem _ _ _ _ hmem hstore
        · cases hrun

/-- A run whose behaviour is undefined becomes so inside `strcat(msg, name)`. -/
theorem stringMethodBody_undefined (string : jstring) (name : CharPtr) (w v : World)
    (f : Fault) (hrun : stringMethodBody string name w = .undefined f v) :
    v = ({ w with msg := msgInit } : World).log (.strcat .msg name) := by
  unfold stringMethodBody at hrun
  simp only at hrun
  cases hcat : strcat .msg name { w with msg := msgInit } with
  | error e =>
    obtain ⟨f1, wf⟩ := e
    rw [hcat] at hrun
    simp only at hrun
    cases hrun
    exact strcat_error_frame _ _ _ _ _ hcat
  | ok w2 =>
    exfalso
    rw [hcat] at hrun
    simp only at hrun
    obtain ⟨t, ht⟩ := cstring_of_nul_mem _ (strcat_msg_ok_nul _ _ _ hcat)
    simp [puts, NewStringUTF, load, World.log, ReleaseStringUTFChars, ht] at hrun

/-- A run that returns went through all five calls. -/
theorem stringMethodBody_returned (string : jstring) (name : CharPtr) (w v : World)
    (r : jstring) (hrun : stringMethodBody string name w = .returned r v) :
    name ≠ .null ∧ v.chars = w.chars ∧ v.lent = false ∧
      v.trace = w.trace ++ [.strcat .msg name, .ReleaseStringUTFChars string name,
        .puts .msg, .NewStringUTF .msg] := by
  unfold stringMethodBody at hrun
  simp only at hrun
  cases hcat : strcat .msg name { w with msg := msgInit } with
  | error e => rw [hcat] at hrun; cases hrun
  | ok w2 =>
    rw [hcat] at hrun
    simp only at hrun
    obtain ⟨c1, c2, _, c4, c5⟩ := strcat_ok_frame _ _ _ _ hcat
    cases hputs : puts .msg (ReleaseStringUTFChars string name w2) with
    | error e => rw [hputs] at hrun; cases hrun
    | ok w4 =>
      rw [hputs] at hrun
      simp only at hrun
      obtain ⟨p1, p2, p3, _⟩ := puts_ok_frame _ _ _ hputs
      cases hnew : NewStringUTF .msg w4 with
      | error e => rw [hnew] at hrun; cases hrun
      | ok res =>
        obtain ⟨res1, w5⟩ := res
        rw [hnew] at hrun
        simp only at hrun
        cases hrun
        obtain ⟨n1, n2, n3, _, _⟩ := NewStringUTF_ok_frame _ _ _ _ hnew
        refine ⟨c5, ?_, ?_, ?_⟩
        · rw [n3, p3]
          simpa [ReleaseStringUTFChars] using c4 rfl
        · rw [n2, p2]
          rfl
        · rw [n1, p1]
          simp [ReleaseStringUTFChars, c1]

/-! ## The contract on strings that fit -/

/-- C1: for every string S of non-NUL bytes with at most 53 of them (6 bytes of greeting, the
bytes of S and the terminator fit the 60-byte buffer), `stringMethod` returns exactly "Hello "
followed by S; the instances for the empty string, "World" and "Todd" are the witness. -/
theorem stringMethod_returns_greeting (S : List Byte) (w : World) (h : ∀ b ∈ S, b ≠ 0)
    (hlen : S.length ≤ 53) :
    (stringMethod (some S) w).result = some (some (hello ++ S)) := by
  rw [stringMethod_inbound S w h hlen]
  rfl

theorem stringMethod_returns_greeting_witness :
    (stringMethod (some []) World.start).result = some (some [72, 101, 108, 108, 111, 32]) ∧
    (stringMethod (some [87, 111, 114, 108, 100]) World.start).result
      = some (some [72, 101, 108, 108, 111, 32, 87, 111, 114, 108, 100]) ∧
    (stringMethod (some [84, 111, 100, 100]) World.start).result
      = some (some [72, 101, 108, 108, 111, 32, 84, 111, 100, 100]) :=
  ⟨stringMethod_returns_greeting [] World.start (by simp) (by simp),
   stringMethod_returns_greeting [87, 111, 114, 108, 100] World.start (by simp) (by simp),
   stringMethod_returns_greeting [84, 111, 100, 100] World.start (by simp) (by simp)⟩

/-- C4: round trip. For strings S and T of at most 53 non-NUL bytes, the string returned for S
has length 6 + length S, its first 6 bytes are "Hello ", dropping them leaves exactly S, and
equal results for S and T force S = T. -/
theorem stringMethod_round_trip (S T : List Byte) (w v : World) (hS : ∀ b ∈ S, b ≠ 0)
    (hSlen : S.length ≤ 53) (hT : ∀ b ∈ T, b ≠ 0) (hTlen : T.length ≤ 53) :
    (∃ r, (stringMethod (some S) w).result = some (some r) ∧ r.length = 6 + S.length ∧
      r.take 6 = hello ∧ r.drop 6 = S) ∧
    ((stringMethod (some S) w).result = (stringMethod (some T) v).result → S = T) := by
  constructor
  · refine ⟨hello ++ S, ?_, ?_, ?_, ?_⟩
    · rw [stringMethod_inbound S w hS hSlen]; rfl
    · simp [hello]; omega
    · exact List.take_left' rfl
    · exact List.drop_left' rfl
  · rw [stringMethod_inbound S w hS hSlen, stringMethod_inbound T v hT hTlen]
    intro heq
    simpa [Outcome.result] using heq

theorem stringMethod_round_trip_witness :
    (∃ r, (stringMethod (some [84, 111, 100, 100]) World.start).result = some (some r) ∧
      r.length = 6 + 4 ∧ r.take 6 = hello ∧ r.drop 6 = [84, 111, 100, 100]) ∧
    ((stringMethod (some [84, 111, 100, 100]) World.start).result
        = (stringMethod (some [87, 111, 114, 108, 100]) World.start).result →
      [84, 111, 100, 100] = ([87, 111, 114, 108, 100] : List Byte)) :=
  stringMethod_round_trip [84, 111, 100, 100] [87, 111, 114, 108, 100] World.start World.start
    (by simp) (by simp) (by simp) (by simp)

/-- C5: for every string S of at most 53 non-NUL bytes, the run appends to standard output
exactly the returned string "Hello " ++ S followed by the newline of `puts`, and nothing else;
among the calls of the run there is exactly one writing call, `puts(msg)`, and it comes before
`NewStringUTF(msg)`, which builds the value returned. -/
theorem stringMethod_emits_once (S : List Byte) (w : World) (h : ∀ b ∈ S, b ≠ 0)
    (hlen : S.length ≤ 53) :
    ∃ r v, stringMethod (some S) w = .returned (some r) v ∧ r = hello ++ S ∧
      v.stdout = w.stdout ++ r ++ [10] ∧
      ∃ before after, v.trace = w.trace ++ (before ++ Event.puts .msg :: after) ∧
        (∀ e ∈ before ++ after, e.isOutput = false) ∧ Event.NewStringUTF .msg ∈ after := by
  refine ⟨hello ++ S, _, stringMethod_inbound S w h hlen, rfl, rfl,
    [.GetStringUTFChars (some S) .chars, .strcat .msg .chars,
      .ReleaseStringUTFChars (some S) .chars], [.NewStringUTF .msg], rfl, ?_, ?_⟩
  · intro e he
    simp at he
    rcases he with rfl | rfl | rfl | rfl <;> rfl
  · simp

theorem stringMethod_emits_once_witness :
    ∃ r v, stringMethod (some [84, 111, 100, 100]) World.start = .returned (some r) v ∧
      r = hello ++ [84, 111, 100, 100] ∧
      v.stdout = World.start.stdout ++ r ++ [10] ∧
      ∃ before after, v.trace = World.start.trace ++ (before ++ Event.puts .msg :: after) ∧
        (∀ e ∈ before ++ after, e.isOutput = false) ∧ Event.NewStringUTF .msg ∈ after :=
  stringMethod_emits_once [84, 111, 100, 100] World.start (by simp) (by simp)

/-- C6: `stringMethod` is deterministic and stateless. For every string S of at most 53 non-NUL
bytes and any two worlds (whatever earlier calls left behind: stale buffer bytes, earlier
output, an earlier lent array), the two runs return the same string, append the same text to
standard output and leave the same buffer, because `msg` starts afresh from "Hello ". -/
theorem stringMethod_deterministic (S : List Byte) (w1 w2 : World) (h : ∀ b ∈ S, b ≠ 0)
    (hlen : S.length ≤ 53) :
    ∃ r out v1 v2, stringMethod (some S) w1 = .returned r v1 ∧
      stringMethod (some S) w2 = .returned r v2 ∧
      v1.stdout = w1.stdout ++ out ∧ v2.stdout = w2.stdout ++ out ∧
      v1.msg = v2.msg ∧ v1.chars = v2.chars ∧ v1.lent = v2.lent :=
  ⟨some (hello ++ S), (hello ++ S) ++ [10], _, _, stringMethod_inbound S w1 h hlen,
    stringMethod_inbound S w2 h hlen, by simp, by simp, rfl, rfl, rfl⟩

theorem stringMethod_deterministic_witness :
    ∃ r out v1 v2,
      stringMethod (some [84, 111, 100, 100]) World.start = .returned r v1 ∧
      stringMethod (some [84, 111, 100, 100])
        { chars := [1, 2, 3], lent := true, msg := [9, 9], stdout := [88, 10],
          trace := [.puts .msg] } = .returned r v2 ∧
      v1.stdout = World.start.stdout ++ out ∧ v2.stdout = [88, 10] ++ out ∧
      v1.msg = v2.msg ∧ v1.chars = v2.chars ∧ v1.lent = v2.lent :=
  stringMethod_deterministic [84, 111, 100, 100] World.start
    { chars := [1, 2, 3], lent := true, msg := [9, 9], stdout := [88, 10],
      trace := [.puts .msg] } (by simp) (by simp)

/-! ## The buffer -/

/-- C7: the capacity of the buffer is not enforced. For every string S of non-NUL bytes the
stores of `strcat(msg, name)` all land on indices below 60 if and only if length S ≤ 53; for
length S = 53 the last store puts the terminator on index 59; and for length S ≥ 54 some store
has an index of 60 or more, and no check turns the call away: the run reaches that store, where
its behaviour is undefined. -/
theorem strcat_stores_within_msg_iff (S : List Byte) (h : ∀ b ∈ S, b ≠ 0) :
    ∃ stores, strcatStores msgInit (S ++ [0]) = some stores ∧
      ((∀ p ∈ stores, p.1 < 60) ↔ S.length ≤ 53) ∧
      (S.length = 53 → stores.getLast? = some (59, 0)) ∧
      (54 ≤ S.length → (∃ p ∈ stores, 60 ≤ p.1) ∧
        ∀ w, ∃ v, stringMethod (some S) w = .undefined (.outOfBounds 60) v ∧
          v.trace = w.trace ++ [.GetStringUTFChars (some S) .chars, .strcat .msg .chars]) := by
  have hidx := copyStores_indices S 6 h
  have hmem : ∀ i, (∃ p ∈ copyStores (S ++ [0]) 6, p.1 = i) ↔ 6 ≤ i ∧ i < 6 + (S.length + 1) := by
    intro i
    have e : (∃ p ∈ copyStores (S ++ [0]) 6, p.1 = i) ↔
        i ∈ (copyStores (S ++ [0]) 6).map Prod.fst := by
      simp [List.mem_map]
    rw [e, hidx, List.mem_range'_1]
  refine ⟨copyStores (S ++ [0]) 6, by simp [strcatStores, strlen_msgInit], ?_, ?_, ?_⟩
  · constructor
    · intro hall
      obtain ⟨p, hp, hpi⟩ := (hmem (6 + S.length)).mpr ⟨by omega, by omega⟩
      have := hall p hp
      omega
    · intro hlen p hp
      have := (hmem p.1).mp ⟨p, hp, rfl⟩
      omega
  · intro hlen
    rw [copyStores_last S 6 h, hlen]
  · intro hlen
    refine ⟨?_, fun w => ⟨_, stringMethod_overflow S w h hlen, rfl⟩⟩
    obtain ⟨p, hp, hpi⟩ := (hmem 60).mpr ⟨by omega, by omega⟩
    exact ⟨p, hp, by omega⟩

theorem strcat_stores_within_msg_iff_witness :
    (∃ stores, strcatStores msgInit (List.replicate 53 65 ++ [0]) = some stores ∧
      (∀ p ∈ stores, p.1 < 60) ∧ stores.getLast? = some (59, 0)) ∧
    (∃ stores, strcatStores msgInit (List.replicate 54 65 ++ [0]) = some stores ∧
      (∃ p ∈ stores, 60 ≤ p.1) ∧
      ∃ v, stringMethod (some (List.replicate 54 65)) World.start
        = .undefined (.outOfBounds 60) v) := by
  constructor
  · obtain ⟨stores, h1, h2, h3, _⟩ := strcat_stores_within_msg_iff (List.replicate 53 65)
      (fun b hb => by rw [List.eq_of_mem_replicate hb]; decide)
    exact ⟨stores, h1, h2.mpr (by simp), h3 (by simp)⟩
  · obtain ⟨stores, h1, _, _, h4⟩ := strcat_stores_within_msg_iff (List.replicate 54 65)
      (fun b hb => by rw [List.eq_of_mem_replicate hb]; decide)
    obtain ⟨h5, h6⟩ := h4 (by simp)
    obtain ⟨v, h7, _⟩ := h6 World.start
    exact ⟨stores, h1, h5, v, h7⟩

/-- C9: for every string S of at most 53 non-NUL bytes, after `strcat(msg, name)` the 60-byte
buffer is a well-formed C string: bytes 0..5 are "Hello ", the next length S bytes are S, byte
6 + length S is NUL and every later byte up to index 59 is still zero; so the C string read
from the buffer is "Hello " ++ S, which is what `puts` prints and `NewStringUTF` returns. -/
theorem msg_after_strcat (S : List Byte) (w : World) (h : ∀ b ∈ S, b ≠ 0)
    (hlen : S.length ≤ 53) :
    ∃ w2, strcat .msg .chars { (GetStringUTFChars (some S) w).2 with msg := msgInit } = .ok w2 ∧
      w2.msg = hello ++ S ++ 0 :: List.replicate (53 - S.length) 0 ∧
      w2.msg.length = 60 ∧ w2.msg.take 6 = hello ∧ (w2.msg.drop 6).take S.length = S ∧
      w2.msg[6 + S.length]? = some 0 ∧
      (∀ i, 6 + S.length < i → i < 60 → w2.msg[i]? = some 0) ∧
      cstring w2.msg = some (hello ++ S) ∧
      ∃ v, stringMethod (some S) w = .returned (some (hello ++ S)) v ∧ v.msg = w2.msg ∧
        v.stdout = w.stdout ++ (hello ++ S) ++ [10] := by
  have hl : hello.length = 6 := rfl
  refine ⟨{ chars := S ++ [0], lent := true,
            msg := hello ++ S ++ 0 :: List.replicate (53 - S.length) 0, stdout := w.stdout,
            trace := w.trace ++ [.GetStringUTFChars (some S) .chars, .strcat .msg .chars] },
    ?_, rfl, ?_, ?_, ?_, ?_, ?_, ?_, ⟨_, stringMethod_inbound S w h hlen, rfl, rfl⟩⟩
  · simp [GetStringUTFChars, strcat, load, store, World.log, strcatStores, strlen_msgInit,
      storeAll_msgInit_fits S h hlen]
  · simp [hl]; omega
  · show (hello ++ S ++ 0 :: List.replicate (53 - S.length) 0).take 6 = hello
    rw [List.append_assoc]
    exact List.take_left' hl
  · show ((hello ++ S ++ 0 :: List.replicate (53 - S.length) 0).drop 6).take S.length = S
    rw [List.append_assoc, List.drop_left' hl]
    exact List.take_left' rfl
  · show (hello ++ S ++ 0 :: List.replicate (53 - S.length) 0)[6 + S.length]? = some 0
    rw [List.getElem?_append_right (by simp [hl])]
    simp [hl]
  · intro i h1 h2
    show (hello ++ S ++ 0 :: List.replicate (53 - S.length) 0)[i]? = some 0
    rw [List.getElem?_append_right (by simp [hl]; omega)]
    simp only [List.length_append, hl]
    obtain ⟨k, hk⟩ : ∃ k, i - (6 + S.length) = k + 1 := ⟨i - (6 + S.length) - 1, by omega⟩
    rw [hk, List.getElem?_cons_succ, List.getElem?_replicate]
    simp
    omega
  · show cstring (hello ++ S ++ 0 :: List.replicate (53 - S.length) 0) = some (hello ++ S)
    rw [List.append_assoc]
    exact cstring_msg_after S h _

theorem msg_after_strcat_witness :
    ∃ w2, strcat .msg .chars
        { (GetStringUTFChars (some [84, 111, 100, 100]) World.start).2 with msg := msgInit }
        = .ok w2 ∧
      w2.msg = hello ++ [84, 111, 100, 100] ++ 0 :: List.replicate (53 - 4) 0 ∧
      w2.msg.length = 60 ∧ w2.msg.take 6 = hello ∧ (w2.msg.drop 6).take 4 = [84, 111, 100, 100] ∧
      w2.msg[6 + 4]? = some 0 ∧
      (∀ i, 6 + 4 < i → i < 60 → w2.msg[i]? = some 0) ∧
      cstring w2.msg = some (hello ++ [84, 111, 100, 100]) ∧
      ∃ v, stringMethod (some [84, 111, 100, 100]) World.start
          = .returned (some (hello ++ [84, 111, 100, 100])) v ∧ v.msg = w2.msg ∧
        v.stdout = World.start.stdout ++ (hello ++ [84, 111, 100, 100]) ++ [10] :=
  msg_after_strcat [84, 111, 100, 100] World.start (by simp) (by simp)

/-! ## The borrowed characters -/

/-- Borrow discipline of the runs that return. A run on a string of at most 53 non-NUL bytes
returns, and every run that returns was given a non-null string and made exactly the calls
`GetStringUTFChars`, `strcat(msg, name)`, `ReleaseStringUTFChars`, `puts(msg)`,
`NewStringUTF(msg)`: one release only, on the same string and on the pointer
`GetStringUTFChars` gave back; no call writes the borrowed array; no call after the release
reads it; and the borrowed array still holds the bytes of the string and its terminator when
the call returns. Every other run has undefined behaviour, from `strcat(msg, name)` on. -/
theorem returned_run_borrow_discipline :
    (∀ (S : List Byte) (w : World), (∀ b ∈ S, b ≠ 0) → S.length ≤ 53 →
      ∃ r v, stringMethod (some S) w = .returned r v) ∧
    (∀ (string : jstring) (w : World) (r : jstring) (v : World),
      stringMethod string w = .returned r v →
      ∃ S, string = some S ∧ v.chars = S ++ [0] ∧ v.lent = false ∧
        ∃ before after,
          v.trace = w.trace ++ (before ++ Event.ReleaseStringUTFChars string .chars :: after) ∧
          before = [.GetStringUTFChars string .chars, .strcat .msg .chars] ∧
          (∀ e ∈ before ++ after, e.isRelease = false) ∧
          (∀ e ∈ before ++ after, CharPtr.chars ∉ e.writes) ∧
          (∀ e ∈ after, CharPtr.chars ∉ e.reads)) ∧
    (∀ (string : jstring) (w : World) (f : Fault) (v : World),
      stringMethod string w = .undefined f v →
      v.trace = w.trace ++ [.GetStringUTFChars string (GetStringUTFChars string w).1,
        .strcat .msg (GetStringUTFChars string w).1]) := by
  refine ⟨?_, ?_, ?_⟩
  · intro S w h hlen
    exact ⟨_, _, stringMethod_inbound S w h hlen⟩
  · intro string w r v hrun
    cases string with
    | none =>
      have key := stringMethodBody_returned none .null _ v r hrun
      exact absurd rfl key.1
    | some S =>
      obtain ⟨_, k2, k3, k4⟩ := stringMethodBody_returned (some S) .chars _ v r hrun
      refine ⟨S, rfl, k2, k3, _, [.puts .msg, .NewStringUTF .msg], ?_, rfl, ?_, ?_, ?_⟩
      · rw [k4]
        simp [GetStringUTFChars]
      · intro e he
        simp at he
        rcases he with rfl | rfl | rfl | rfl <;> rfl
      · intro e he
        simp at he
        rcases he with rfl | rfl | rfl | rfl <;> simp [Event.writes]
      · intro e he
        simp at he
        rcases he with rfl | rfl <;> simp [Event.reads]
  · intro string w f v hrun
    have key := stringMethodBody_undefined string _ _ v f hrun
    rw [key]
    cases string <;> simp [GetStringUTFChars, World.log]

/-! ## Inputs the source does not check for -/

/-- C2: evaluation at a string of 100 bytes. No error comes back: `strcat` stores to the
indices 6 to 106, the terminator landing on 106, so the stores from index 60 on fall outside
the 60-byte buffer and the behaviour of the run is undefined from that call on. -/
theorem stringMethod_hundred_bytes_overflow :
    stringMethod (some (List.replicate 100 65)) World.start
      = .undefined (.outOfBounds 60)
          { chars := List.replicate 100 65 ++ [0], lent := true, msg := msgInit, stdout := [],
            trace := [.GetStringUTFChars (some (List.replicate 100 65)) .chars,
              .strcat .msg .chars] } ∧
    ∃ stores, strcatStores msgInit (List.replicate 100 65 ++ [0]) = some stores ∧
      stores.map Prod.fst = List.range' 6 101 ∧ stores.getLast? = some (106, 0) := by
  have h : ∀ b ∈ List.replicate 100 (65 : Byte), b ≠ 0 :=
    fun b hb => by rw [List.eq_of_mem_replicate hb]; decide
  refine ⟨?_, copyStores (List.replicate 100 65 ++ [0]) 6, ?_, ?_, ?_⟩
  · exact stringMethod_overflow _ World.start h (by simp)
  · simp [strcatStores, strlen_msgInit]
  · simpa using copyStores_indices _ 6 h
  · simpa using copyStores_last _ 6 h

/-- C3: evaluation at the null reference, and at a null result of `GetStringUTFChars` for any
string. No error comes back and the pointer is not tested: `strcat(msg, name)` is called and
loads through the null pointer, where the behaviour of the run is undefined; nothing has been
printed. -/
theorem stringMethod_null_undefined (w : World) :
    stringMethod none w = .undefined .nullPointer
      { w with msg := msgInit,
               trace := w.trace ++ [.GetStringUTFChars none .null, .strcat .msg .null] } ∧
    ∀ string : jstring, stringMethodBody string .null w = .undefined .nullPointer
      { w with msg := msgInit, trace := w.trace ++ [.strcat .msg .null] } := by
  constructor
  · simp [stringMethod, stringMethodBody, GetStringUTFChars, strcat, load, World.log]
  · intro string
    simp [stringMethodBody, strcat, load, World.log]

/-- C8: evaluation at a string of 54 bytes. The terminator that `strcat(msg, name)` copies
lands on index 60, outside `msg`, before `ReleaseStringUTFChars` is reached: the behaviour of
the run is undefined from that call on, with the borrowed array still lent and no release
among the calls made, and the run does not return. So this is an invocation in which the
borrowed characters are not released by exactly one call on the same string and pointer. -/
theorem stringMethod_overflow_before_release :
    stringMethod (some (List.replicate 54 65)) World.start
      = .undefined (.outOfBounds 60)
          { chars := List.replicate 54 65 ++ [0], lent := true, msg := msgInit, stdout := [],
            trace := [.GetStringUTFChars (some (List.replicate 54 65)) .chars,
              .strcat .msg .chars] } ∧
    (∀ f v, stringMethod (some (List.replicate 54 65)) World.start = .undefined f v →
      v.lent = true ∧ ∀ e ∈ v.trace, e.isRelease = false) ∧
    ¬ ∃ r v, stringMethod (some (List.replicate 54 65)) World.start = .returned r v := by
  have h : ∀ b ∈ List.replicate 54 (65 : Byte), b ≠ 0 :=
    fun b hb => by rw [List.eq_of_mem_replicate hb]; decide
  have run := stringMethod_overflow (List.replicate 54 65) World.start h (by simp)
  refine ⟨run, ?_, ?_⟩
  · intro f v hv
    rw [run] at hv
    cases hv
    refine ⟨rfl, ?_⟩
    intro e he
    simp [World.start] at he
    rcases he with rfl | rfl <;> rfl
  · rintro ⟨r, v, hv⟩
    rw [run] at hv
    cases hv

end ARVectorFields
